import Mathlib

/-!
Verification development for the `TrainTask` epoch-metrics recorder
(`digits/model/tasks/train.py`).

The Python class is shallowly embedded: the two `OrderedDict`s of
`NetworkOutput` named tuples become association lists over `String`;
a row of a series (which in Python is a number, a list of numbers, or
`None`) becomes the inductive `Row`; Python numbers become `ℚ` (with a
tagged `PyNum` where the int/float distinction matters, because the
source runs under Python 2 where `/` on two ints is floor division);
Python exceptions become explicit error values.
-/

namespace DigitsTrain

/-- Errors the embedded Python code can raise. -/
inductive PyErr where
  /-- `IndexError`, e.g. `data[-1]` on an empty list. -/
  | indexError
  /-- the `Exception('Received a new output without being told the new epoch')`
      raised by `save_output`; the spec calls it `OutOfOrderUpdate`. -/
  | outOfOrder
  /-- `TypeError`, e.g. iterating over `None`. -/
  | typeError
  /-- `AttributeError`, reading an attribute that was never assigned. -/
  | attrError
  /-- `ZeroDivisionError`. -/
  | zeroDiv
deriving DecidableEq, Repr

/-- One row of a series: in Python a number, a list (multiple producers
reported into the same epoch slot, possibly starting from a backfilled
`None`), or `None` (a backfilled gap).  `Row.val none` is Python's `None`. -/
inductive Row where
  | val : Option ℚ → Row
  | multi : List (Option ℚ) → Row
deriving DecidableEq, Repr

/-- `NetworkOutput = namedtuple('NetworkOutput', ['kind', 'data'])`. -/
structure NetworkOutput where
  kind : String
  data : List Row
deriving DecidableEq, Repr

/-- An `OrderedDict` of `NetworkOutput`s keyed by metric name
(`train_outputs` / `val_outputs`), in insertion order. -/
abbrev Table := List (String × NetworkOutput)

/-- `d[key]` lookup (first occurrence; keys are unique in reachable tables). -/
def od_find : Table → String → Option NetworkOutput
  | [], _ => none
  | (k, v) :: rest, key => if k = key then some v else od_find rest key

/-- In-place update of the `data` field of the entry at `key`
(first occurrence), as Python's mutation of `d[key].data` does. -/
def od_mapData : Table → String → (List Row → List Row) → Table
  | [], _, _ => []
  | (k, v) :: rest, key, f =>
      if k = key then (k, ⟨v.kind, f v.data⟩) :: rest
      else (k, v) :: od_mapData rest key f

/-- The data sequence stored under `n`, or `[]` if `n` is absent. -/
def dataOf (d : Table) (n : String) : List Row :=
  match od_find d n with
  | some o => o.data
  | none => []

/-- `len(d['epoch'].data)` (0 if the epoch series is absent). -/
def epochLen (d : Table) : Nat := (dataOf d "epoch").length

/-- `len(d[n].data)` (0 if absent). -/
def nameLen (d : Table) (n : String) : Nat := (dataOf d n).length

/-- The `update d['epoch']` step of `save_output`, as a total function
(used when the epoch series, if present, has non-empty data):
create the series at the current epoch, or append the current epoch
when the last recorded epoch differs from it. -/
def epochUpdated (ce : ℚ) (d : Table) : Table :=
  match od_find d "epoch" with
  | none => d ++ [("epoch", ⟨"Epoch", [Row.val (some ce)]⟩)]
  | some o =>
      if o.data.getLast? = some (Row.val (some ce)) then d
      else od_mapData d "epoch" (fun xs => xs ++ [Row.val (some ce)])

/-- The `update d['epoch']` step with Python's `IndexError` made explicit:
`d['epoch'].data[-1]` raises when the epoch series exists with empty data. -/
def epochStep (ce : ℚ) (d : Table) : Except PyErr Table :=
  match od_find d "epoch" with
  | none => .ok (epochUpdated ce d)
  | some o =>
      match o.data.getLast? with
      | none => .error .indexError
      | some _ => .ok (epochUpdated ce d)

/-- `if name not in d: d[name] = NetworkOutput(kind, [])`. -/
def insertName (d : Table) (n k : String) : Table :=
  match od_find d n with
  | some _ => d
  | none => d ++ [(n, ⟨k, []⟩)]

/-- The table at `save_output`'s length-comparison point: after the epoch
update and after inserting an empty series for `name` if absent. -/
def compPoint (ce : ℚ) (d : Table) (n k : String) : Table :=
  insertName (epochUpdated ce d) n k

/-- Merge a new value into an already-present last row:
`d[name].data[-1].append(value)` when it is a list, else
`d[name].data[-1] = [old, value]`. -/
def mergeRow (last : Row) (value : ℚ) : Row :=
  match last with
  | Row.multi cs => Row.multi (cs ++ [some value])
  | Row.val o => Row.multi [o, some value]

/-- Replace the last row of a series by its merge with `value`
(identity on the empty list, which never occurs on the paths using it). -/
def promoteLast (value : ℚ) (xs : List Row) : List Row :=
  match xs.getLast? with
  | none => xs
  | some last => xs.dropLast ++ [mergeRow last value]

/-- The completeness scan at the end of `save_output`: every series other
than `"epoch"` and `"learning_rate"` must have exactly `epoch_len` rows. -/
def checkComplete (d : Table) (epoch_len : Nat) : Bool :=
  d.all fun kv =>
    kv.1 == "epoch" || kv.1 == "learning_rate" || kv.2.data.length == epoch_len

/-- `TrainTask.save_output(self, d, name, kind, value)`, with `ce` the
current value of `self.current_epoch`.  Returns the table after the
in-place mutations together with either the raised error or the returned
boolean ("all outputs for this epoch have been added").  The returned
table reflects the mutations performed before a raise, since Python's
mutations of `d` survive the exception. -/
def save_output (ce : ℚ) (d : Table) (name kind : String) (value : ℚ) :
    Table × Except PyErr Bool :=
  match epochStep ce d with
  | .error e => (d, .error e)
  | .ok d1 =>
      let d2 := insertName d1 name kind
      let epoch_len := epochLen d2
      let name_len := nameLen d2 name
      if epoch_len < name_len then
        (d2, .error .outOfOrder)
      else if name_len = epoch_len then
        match (dataOf d2 name).getLast? with
        | none => (d2, .error .indexError)
        | some _ =>
            let d3 := od_mapData d2 name (promoteLast value)
            (d3, .ok (checkComplete d3 epoch_len))
      else if name_len = epoch_len - 1 then
        let d3 := od_mapData d2 name (fun xs => xs ++ [Row.val (some value)])
        (d3, .ok (checkComplete d3 epoch_len))
      else
        let d3 := od_mapData d2 name
          (fun xs => xs ++ List.replicate (epoch_len - name_len - 1) (Row.val none)
            ++ [Row.val (some value)])
        (d3, .ok (checkComplete d3 epoch_len))

/-! ### Python 2 numbers and `send_progress_update` -/

/-- A Python 2 number: an `int` or a `float`, with its numeric value
(floats are modelled by their rational value; the claims below do not
depend on binary rounding).  Needed because Python 2's `/` is floor
division when both operands are ints. -/
structure PyNum where
  isInt : Bool
  val : ℚ
deriving DecidableEq, Repr

/-- Python 2 division: floor division on two ints, true division otherwise. -/
def pydiv (a b : PyNum) : PyNum :=
  if a.isInt && b.isInt then ⟨true, ((Int.floor (a.val / b.val) : ℤ) : ℚ)⟩
  else ⟨false, a.val / b.val⟩

/-- `int(round(x))` in Python 2: round half away from zero. -/
def pyRound (q : ℚ) : Int :=
  if q < 0 then -Int.floor (-q + 1/2) else Int.floor (q + 1/2)

/-- The job-level numeric state read and written by
`TrainTask.send_progress_update`. -/
structure ProgressState where
  current_epoch : PyNum
  train_epochs : PyNum
  progress : PyNum
deriving DecidableEq, Repr

/-- `TrainTask.send_progress_update(self, epoch)`: no-op when
`self.current_epoch == epoch` (Python numeric equality, so `0 == 0.0`);
otherwise store the epoch, recompute `progress = epoch/train_epochs`
(Python 2 division; `ZeroDivisionError` when `train_epochs` is zero) and
emit the percentage `int(round(100*progress))` over socketio (the
emission is modelled by the returned `Option Int`). -/
def send_progress_update (s : ProgressState) (epoch : PyNum) :
    Except PyErr (ProgressState × Option Int) :=
  if s.current_epoch.val = epoch.val then .ok (s, none)
  else if s.train_epochs.val = 0 then .error .zeroDiv
  else
    let p := pydiv epoch s.train_epochs
    .ok ({ current_epoch := epoch, train_epochs := s.train_epochs, progress := p },
      some (pyRound (100 * p.val)))

/-! ### `save_train_output` and the unset `last_train_update` attribute -/

/-- Outcome of `TrainTask.save_train_output`: the table after the in-place
mutation, the (possibly updated) `last_train_update` attribute, whether
the graph-emission section was reached, and the propagated error if any.
`ltu = none` models the attribute never having been assigned (neither
`__init__` nor `__setstate__` assigns it). -/
structure STOResult where
  table : Table
  ltu : Option ℚ
  pushed : Bool
  err : Option PyErr
deriving DecidableEq, Repr

/-- `TrainTask.save_train_output(self, name, kind, value)` at time `now`:
run `save_output` on `train_outputs`; on an incomplete row return; on a
complete row evaluate `if self.last_train_update and (time.time() -
self.last_train_update) < 5: return` — reading `self.last_train_update`
raises `AttributeError` when the attribute was never assigned — then
stamp `last_train_update = time.time()` and emit the graph payloads. -/
def save_train_output (now ce : ℚ) (ltu : Option ℚ) (d : Table)
    (name kind : String) (value : ℚ) : STOResult :=
  match save_output ce d name kind value with
  | (d1, .error e) => ⟨d1, ltu, false, some e⟩
  | (d1, .ok false) => ⟨d1, ltu, false, none⟩
  | (d1, .ok true) =>
      match ltu with
      | none => ⟨d1, none, false, some .attrError⟩
      | some t =>
          if t ≠ 0 ∧ now - t < 5 then ⟨d1, some t, false, none⟩
          else ⟨d1, some now, true, none⟩

/-! ### Graph formatters -/

/-- Helper for `everyNth`: take an element when the countdown hits 0 and
reset it to `k - 1`, else decrement. -/
def everyNthAux {α : Type} (k : Nat) : List α → Nat → List α
  | [], _ => []
  | x :: rest, 0 => x :: everyNthAux k rest (k - 1)
  | _ :: rest, c + 1 => everyNthAux k rest c

/-- `xs[::k]` for `k ≥ 1`: every `k`-th element starting at index 0. -/
def everyNth {α : Type} (xs : List α) (k : Nat) : List α :=
  everyNthAux k xs 0

/-- `stride = max(len(...)/100, 1)` (Python 2 floor division). -/
def strideOf (len : Nat) : Nat := max (len / 100) 1

/-- Contiguous-substring test on character lists. -/
def containsSub (needle : List Char) : List Char → Bool
  | [] => needle.isEmpty
  | c :: rest => needle.isPrefixOf (c :: rest) || containsSub needle rest

/-- `'accuracy' in kind.lower()`. -/
def kindHasAccuracy (kind : String) : Bool :=
  containsSub "accuracy".data (kind.data.map Char.toLower)

/-- `'loss' in kind.lower()`. -/
def kindHasLoss (kind : String) : Bool :=
  containsSub "loss".data (kind.data.map Char.toLower)

/-- One C3.js column: its id string followed by its (down-sampled) values. -/
structure Column where
  id : String
  vals : List Row
deriving DecidableEq, Repr

/-- The C3.js payload `{columns, xs, names, axes}` (formatters without an
`axes` key leave it empty). -/
structure GraphData where
  columns : List Column
  xs : List (String × String)
  names : List (String × String)
  axes : List (String × String)
deriving DecidableEq, Repr

/-- Result of one side's `for name, output in ...iteritems()` loop. -/
structure SideResult where
  cols : List Column
  xs : List (String × String)
  names : List (String × String)
  axes : List (String × String)
  added : Bool
deriving DecidableEq, Repr

/-- One side's loop body, shared by the loss / accuracy / combined
formatters: each included metric becomes a down-sampled column
`name ++ suffix`, an `xs` entry, a `names` entry, and — when `tagAxes` —
a `'y2'` axes tag if its kind contains "accuracy". -/
def sideCols (includeP : String → NetworkOutput → Bool) (tagAxes : Bool)
    (suffix xid nameSuf : String) (stride : Nat) : Table → SideResult
  | [] => ⟨[], [], [], [], false⟩
  | (n, o) :: rest =>
      let r := sideCols includeP tagAxes suffix xid nameSuf stride rest
      if includeP n o then
        { cols := ⟨n ++ suffix, everyNth o.data stride⟩ :: r.cols,
          xs := (n ++ suffix, xid) :: r.xs,
          names := (n ++ suffix, n ++ nameSuf) :: r.names,
          axes := if tagAxes && kindHasAccuracy o.kind
                  then (n ++ suffix, "y2") :: r.axes else r.axes,
          added := true }
      else r

/-- One side of a formatter: guard on the table being truthy with an
`'epoch'` entry, compute the stride from the epoch-series length, run the
loop, and append the x-axis column iff a data column was added. -/
def sideBlock (t : Table) (includeP : String → NetworkOutput → Bool)
    (tagAxes : Bool) (suffix xid nameSuf : String) : SideResult :=
  match od_find t "epoch" with
  | none => ⟨[], [], [], [], false⟩
  | some eo =>
      let stride := strideOf eo.data.length
      let r := sideCols includeP tagAxes suffix xid nameSuf stride t
      { r with cols :=
          if r.added then r.cols ++ [⟨xid, everyNth eo.data stride⟩] else r.cols }

/-- Assemble the train and val sides; `None` when no column was produced. -/
def assembleGraph (tr vr : SideResult) : Option GraphData :=
  let cols := tr.cols ++ vr.cols
  if cols.isEmpty then none
  else some ⟨cols, tr.xs ++ vr.xs, tr.names ++ vr.names, tr.axes ++ vr.axes⟩

/-- `TrainTask.combined_graph_data`: train side includes every metric
except `'epoch'` and `'learning_rate'`; val side includes every metric
except `'epoch'`; both tag accuracy-kinded metrics for the `y2` axis. -/
def combined_graph_data (train val : Table) : Option GraphData :=
  assembleGraph
    (sideBlock train (fun n _ => !(n == "epoch" || n == "learning_rate"))
      true "-train" "train_epochs" " (train)")
    (sideBlock val (fun n _ => !(n == "epoch"))
      true "-val" "val_epochs" " (val)")

/-- `TrainTask.loss_graph_data`: like combined, restricted to metrics whose
kind contains "loss", and without axes tags. -/
def loss_graph_data (train val : Table) : Option GraphData :=
  assembleGraph
    (sideBlock train
      (fun n o => !(n == "epoch" || n == "learning_rate") && kindHasLoss o.kind)
      false "-train" "train_epochs" " (train)")
    (sideBlock val (fun n o => !(n == "epoch") && kindHasLoss o.kind)
      false "-val" "val_epochs" " (val)")

/-- `TrainTask.accuracy_graph_data`: restricted to metrics whose kind is
exactly `"Accuracy"`, without axes tags. -/
def accuracy_graph_data (train val : Table) : Option GraphData :=
  assembleGraph
    (sideBlock train
      (fun n o => !(n == "epoch" || n == "learning_rate") && (o.kind == "Accuracy"))
      false "-train" "train_epochs" " (train)")
    (sideBlock val (fun n o => !(n == "epoch") && (o.kind == "Accuracy"))
      false "-val" "val_epochs" " (val)")

/-- `TrainTask.lr_graph_data`: requires both an `'epoch'` and a
`'learning_rate'` series in `train_outputs`, else `None`; emits the two
down-sampled columns with the fixed ids `'epoch'` and `'lr'`. -/
def lr_graph_data (train : Table) : Option GraphData :=
  match od_find train "epoch", od_find train "learning_rate" with
  | some eo, some lo =>
      let stride := strideOf eo.data.length
      some ⟨[⟨"epoch", everyNth eo.data stride⟩, ⟨"lr", everyNth lo.data stride⟩],
        [("lr", "epoch")], [("lr", "Learning Rate")], []⟩
  | _, _ => none

/-! ### `__setstate__` version-1-to-2 migration -/

/-- Python truthiness of an optional list (`None` and `[]` are falsy). -/
def pyTruthy {α : Type} : Option (List α) → Bool
  | some (_ :: _) => true
  | _ => false

/-- `[u[0] for u in l]` as epoch rows. -/
def pairsFst (l : List (ℚ × ℚ)) : List Row := l.map fun u => Row.val (some u.1)

/-- `[u[1] for u in l]` as value rows. -/
def pairsSnd (l : List (ℚ × ℚ)) : List Row := l.map fun u => Row.val (some u.2)

/-- The table-rebuilding part of `TrainTask.__setstate__`: when the
persisted `pickver_task_train` is older than 2, rebuild `train_outputs`
and `val_outputs` from the flat pair lists `train_loss_updates`,
`val_loss_updates`, `val_accuracy_updates`, `lr_updates` (each `none`
when absent from the pickled state); otherwise keep the persisted tables.
When `train_loss_updates` is truthy the training branch iterates
`lr_updates`, which raises `TypeError` if that is `None`. -/
def setstate_tables (ver : Int) (cur : Table × Table)
    (tl vl va lr : Option (List (ℚ × ℚ))) : Except PyErr (Table × Table) :=
  if ver < 2 then
    match (if pyTruthy tl then
        match lr with
        | none => Except.error PyErr.typeError
        | some lrL =>
            Except.ok [("epoch", ⟨"Epoch", pairsFst (tl.getD [])⟩),
              ("loss", ⟨"SoftmaxWithLoss", pairsSnd (tl.getD [])⟩),
              ("learning_rate", ⟨"LearningRate", pairsSnd lrL⟩)]
      else Except.ok ([] : Table)) with
    | .error e => .error e
    | .ok touts =>
        let vouts : Table :=
          if pyTruthy vl then
            [("epoch", ⟨"Epoch", pairsFst (vl.getD [])⟩),
              ("loss", ⟨"SoftmaxWithLoss", pairsSnd (vl.getD [])⟩)]
            ++ (if pyTruthy va then
                  [("accuracy", ⟨"Accuracy", pairsSnd (va.getD [])⟩)] else [])
          else []
        .ok (touts, vouts)
  else .ok cur

/-! ### Whole-task state and call sequences -/

/-- A freshly constructed task (`TrainTask.__init__`): `current_epoch = 0`,
empty output tables, and — significantly — no `last_train_update`
attribute assigned (`none`). -/
structure TaskState where
  prog : ProgressState
  train_outputs : Table
  val_outputs : Table
  last_train_update : Option ℚ
deriving DecidableEq, Repr

/-- The state `__init__` leaves behind for a given `train_epochs`. -/
def freshTask (train_epochs : PyNum) : TaskState :=
  { prog := ⟨⟨true, 0⟩, train_epochs, ⟨true, 0⟩⟩,
    train_outputs := [], val_outputs := [], last_train_update := none }

/-- One `save_output` call: the task's `current_epoch` at call time, the
metric name and kind, and the reported value. -/
structure Call where
  ce : ℚ
  name : String
  kind : String
  value : ℚ
deriving DecidableEq, Repr

/-- A sequence of `save_output` calls into one table, starting empty;
the fold stops mutating once a call has raised. -/
def runCalls (cs : List Call) : Table × Except PyErr Bool :=
  cs.foldl
    (fun acc c =>
      match acc.2 with
      | .error _ => acc
      | .ok _ => save_output c.ce acc.1 c.name c.kind c.value)
    ([], .ok true)

/-- The epochs of a call sequence are non-decreasing. -/
def nonDecr (cs : List Call) : Prop :=
  List.Chain' (fun a b => a ≤ b) (cs.map Call.ce)

/-! ### Association-list lemmas -/

theorem od_find_mem {d : Table} {k : String} {o : NetworkOutput}
    (h : od_find d k = some o) : (k, o) ∈ d := by
  induction d with
  | nil => simp [od_find] at h
  | cons hd tl ih =>
      obtain ⟨k', o'⟩ := hd
      simp only [od_find] at h
      split at h
      · next heq => cases h; simp [heq]
      · exact List.mem_cons_of_mem _ (ih h)

theorem od_find_append (d l : Table) (k : String) :
    od_find (d ++ l) k =
      match od_find d k with
      | some o => some o
      | none => od_find l k := by
  induction d with
  | nil => simp [od_find]
  | cons hd tl ih =>
      obtain ⟨k', o'⟩ := hd
      simp only [List.cons_append, od_find]
      split <;> simp [ih]

theorem od_find_mapData_self (d : Table) (key : String) (f : List Row → List Row) :
    od_find (od_mapData d key f) key =
      (od_find d key).map fun o => ⟨o.kind, f o.data⟩ := by
  induction d with
  | nil => simp [od_find, od_mapData]
  | cons hd tl ih =>
      obtain ⟨k', o'⟩ := hd
      simp only [od_mapData]
      split
      · next heq => simp [od_find, heq]
      · next hne => simp [od_find, hne, ih]

theorem od_find_mapData_ne (d : Table) (key : String) (f : List Row → List Row)
    {k : String} (h : k ≠ key) :
    od_find (od_mapData d key f) k = od_find d k := by
  induction d with
  | nil => simp [od_mapData]
  | cons hd tl ih =>
      obtain ⟨k', o'⟩ := hd
      simp only [od_mapData]
      split
      · next heq =>
          subst heq
          have hne : ¬(k' = k) := fun hh => h hh.symm
          simp [od_find, hne]
      · next hne =>
          simp only [od_find, ih]

theorem mem_od_mapData {d : Table} {key : String} {f : List Row → List Row}
    {kv : String × NetworkOutput} (h : kv ∈ od_mapData d key f) :
    kv ∈ d ∨ ∃ o, od_find d key = some o ∧ kv = (key, ⟨o.kind, f o.data⟩) := by
  induction d with
  | nil => simp [od_mapData] at h
  | cons hd tl ih =>
      obtain ⟨k', o'⟩ := hd
      simp only [od_mapData] at h
      split at h
      · next heq =>
          subst heq
          rcases List.mem_cons.1 h with h1 | h1
          · exact Or.inr ⟨o', by simp [od_find], h1⟩
          · exact Or.inl (List.mem_cons_of_mem _ h1)
      · next hne =>
          rcases List.mem_cons.1 h with h1 | h1
          · exact Or.inl (by simp [h1])
          · rcases ih h1 with h2 | ⟨o, ho, hkv⟩
            · exact Or.inl (List.mem_cons_of_mem _ h2)
            · exact Or.inr ⟨o, by simp [od_find, hne, ho], hkv⟩

theorem mem_insertName {d : Table} {n k : String} {kv : String × NetworkOutput}
    (h : kv ∈ insertName d n k) : kv ∈ d ∨ kv = (n, ⟨k, []⟩) := by
  unfold insertName at h
  split at h
  · exact Or.inl h
  · rcases List.mem_append.1 h with h1 | h1
    · exact Or.inl h1
    · simp at h1; exact Or.inr h1

theorem od_find_insertName_self (d : Table) (n k : String) :
    od_find (insertName d n k) n =
      some (match od_find d n with | some o => o | none => ⟨k, []⟩) := by
  unfold insertName
  split
  · next o h => simp [h]
  · next h => simp [h, od_find_append, od_find]

theorem od_find_insertName_ne (d : Table) (n k : String) {m : String} (h : m ≠ n) :
    od_find (insertName d n k) m = od_find d m := by
  unfold insertName
  split
  · rfl
  · rw [od_find_append]
    cases heq : od_find d m with
    | some o => rfl
    | none =>
        have hne : ¬(n = m) := fun hh => h hh.symm
        simp [od_find, hne]

/-! ### Well-formedness and `save_output` branch lemmas -/

/-- A table is well-formed when its `'epoch'` series, if present, has
non-empty data.  Every table the program builds is well-formed. -/
def WF (d : Table) : Prop := ∀ o, od_find d "epoch" = some o → o.data ≠ []

instance (d : Table) : Decidable (WF d) :=
  match h : od_find d "epoch" with
  | some o =>
      if he : o.data = [] then
        .isFalse fun hw => hw o h he
      else
        .isTrue fun o' h' => by
          rw [h] at h'
          cases h'
          exact he
  | none => .isTrue fun o' h' => by rw [h] at h'; cases h'

theorem epochUpdated_find (ce : ℚ) (d : Table) :
    ∃ eo, od_find (epochUpdated ce d) "epoch" = some eo ∧ eo.data ≠ [] := by
  unfold epochUpdated
  split
  · next h =>
      refine ⟨⟨"Epoch", [Row.val (some ce)]⟩, ?_, by simp⟩
      rw [od_find_append, h]
      simp [od_find]
  · next o h =>
      split
      · next hlast =>
          refine ⟨o, h, ?_⟩
          intro hnil
          rw [hnil] at hlast
          simp at hlast
      · refine ⟨⟨o.kind, o.data ++ [Row.val (some ce)]⟩, ?_, by simp⟩
        rw [od_find_mapData_self, h]
        rfl

theorem epochLen_le_epochUpdated (ce : ℚ) (d : Table) :
    epochLen d ≤ epochLen (epochUpdated ce d) := by
  unfold epochUpdated
  split
  · next h =>
      have h0 : epochLen d = 0 := by simp [epochLen, dataOf, h]
      rw [h0]
      exact Nat.zero_le _
  · next o h =>
      split
      · exact le_refl _
      · have h1 : epochLen (od_mapData d "epoch" fun xs => xs ++ [Row.val (some ce)])
            = o.data.length + 1 := by
          simp [epochLen, dataOf, od_find_mapData_self, h]
        have h2 : epochLen d = o.data.length := by simp [epochLen, dataOf, h]
        rw [h1, h2]
        exact Nat.le_succ _

theorem mem_epochUpdated {ce : ℚ} {d : Table} {kv : String × NetworkOutput}
    (h : kv ∈ epochUpdated ce d) (hne : kv.1 ≠ "epoch") : kv ∈ d := by
  unfold epochUpdated at h
  split at h
  · rcases List.mem_append.1 h with h1 | h1
    · exact h1
    · simp at h1
      exact absurd (by simp [h1]) hne
  · split at h
    · exact h
    · rcases mem_od_mapData h with h1 | ⟨o, _, hkv⟩
      · exact h1
      · exact absurd (by simp [hkv]) hne

theorem epochStep_eq_of_WF {d : Table} (h : WF d) (ce : ℚ) :
    epochStep ce d = .ok (epochUpdated ce d) := by
  unfold epochStep
  split
  · rfl
  · next o ho =>
      have hne : o.data ≠ [] := h o ho
      obtain ⟨last, hlast⟩ :=
        Option.isSome_iff_exists.1 (List.getLast?_isSome.2 hne)
      rw [hlast]

theorem epochLen_insertName (d : Table) (n k : String) :
    epochLen (insertName d n k) = epochLen d := by
  by_cases hn : n = "epoch"
  · subst hn
    unfold epochLen dataOf
    rw [od_find_insertName_self]
    cases h : od_find d "epoch" with
    | some o => simp [h]
    | none => simp [h]
  · unfold epochLen dataOf
    rw [od_find_insertName_ne _ _ _ (fun hh => hn hh.symm)]

theorem compPoint_epoch_find (ce : ℚ) (d : Table) (n k : String) :
    ∃ eo, od_find (compPoint ce d n k) "epoch" = some eo ∧ eo.data ≠ []
      ∧ eo.data.length = epochLen (compPoint ce d n k) := by
  obtain ⟨eo, heo, hne⟩ := epochUpdated_find ce d
  unfold compPoint
  by_cases hn : n = "epoch"
  · subst hn
    rw [od_find_insertName_self, heo]
    exact ⟨eo, rfl, hne, by simp [epochLen, dataOf, od_find_insertName_self, heo]⟩
  · rw [od_find_insertName_ne _ _ _ (fun hh => hn hh.symm), heo]
    refine ⟨eo, rfl, hne, ?_⟩
    rw [epochLen_insertName]
    simp [epochLen, dataOf, heo]

theorem epochLen_compPoint_pos (ce : ℚ) (d : Table) (n k : String) :
    1 ≤ epochLen (compPoint ce d n k) := by
  obtain ⟨eo, _, hne, hlen⟩ := compPoint_epoch_find ce d n k
  rw [← hlen]
  exact Nat.one_le_iff_ne_zero.2 (by simpa using hne)

theorem mem_compPoint {ce : ℚ} {d : Table} {n k : String}
    {kv : String × NetworkOutput} (h : kv ∈ compPoint ce d n k)
    (hne : kv.1 ≠ "epoch") : kv ∈ d ∨ kv = (n, ⟨k, []⟩) := by
  rcases mem_insertName h with h1 | h1
  · exact Or.inl (mem_epochUpdated h1 hne)
  · exact Or.inr h1

theorem WF_compPoint (ce : ℚ) (d : Table) (n k : String) :
    WF (compPoint ce d n k) := by
  intro o h
  obtain ⟨eo, heo, hne, _⟩ := compPoint_epoch_find ce d n k
  rw [heo] at h
  cases h
  exact hne

theorem nameLen_of_find {d : Table} {n : String} {o : NetworkOutput}
    (h : od_find d n = some o) : nameLen d n = o.data.length := by
  simp [nameLen, dataOf, h]

theorem epochLen_of_find {d : Table} {o : NetworkOutput}
    (h : od_find d "epoch" = some o) : epochLen d = o.data.length := by
  simp [epochLen, dataOf, h]

theorem compPoint_find_name (ce : ℚ) (d : Table) (n k : String) :
    ∃ o, od_find (compPoint ce d n k) n = some o := by
  unfold compPoint
  rw [od_find_insertName_self]
  exact ⟨_, rfl⟩

theorem promoteLast_length (v : ℚ) (xs : List Row) :
    (promoteLast v xs).length = xs.length := by
  unfold promoteLast
  cases h : xs.getLast? with
  | none => rfl
  | some last =>
      have hne : xs ≠ [] := by
        intro hnil
        rw [hnil] at h
        simp at h
      have hpos : 0 < xs.length := List.length_pos.2 hne
      simp [List.length_dropLast]
      omega

theorem checkComplete_iff (d : Table) (el : Nat) :
    checkComplete d el = true ↔
      ∀ kv ∈ d, kv.1 ≠ "epoch" → kv.1 ≠ "learning_rate" → kv.2.data.length = el := by
  unfold checkComplete
  simp only [List.all_eq_true, Bool.or_eq_true, beq_iff_eq]
  constructor
  · intro h kv hkv h1 h2
    have h3 := h kv hkv
    tauto
  · intro h kv hkv
    have h3 := h kv hkv
    tauto

/-- Unfolding of `save_output` when the input table is well-formed: the
epoch update cannot raise `IndexError`, so only the four-way length
comparison at `compPoint` remains. -/
theorem save_output_of_WF {d : Table} (h : WF d) (ce : ℚ) (n k : String) (v : ℚ) :
    save_output ce d n k v =
      (let d2 := compPoint ce d n k
       let el := epochLen d2
       let nl := nameLen d2 n
       if el < nl then (d2, .error .outOfOrder)
       else if nl = el then
         match (dataOf d2 n).getLast? with
         | none => (d2, .error .indexError)
         | some _ =>
             let d3 := od_mapData d2 n (promoteLast v)
             (d3, .ok (checkComplete d3 el))
       else if nl = el - 1 then
         let d3 := od_mapData d2 n (fun xs => xs ++ [Row.val (some v)])
         (d3, .ok (checkComplete d3 el))
       else
         let d3 := od_mapData d2 n
           (fun xs => xs ++ List.replicate (el - nl - 1) (Row.val none)
             ++ [Row.val (some v)])
         (d3, .ok (checkComplete d3 el))) := by
  unfold save_output compPoint
  rw [epochStep_eq_of_WF h]

theorem dataOf_compPoint_getLast {d : Table} (ce : ℚ) (n k : String)
    (heq : nameLen (compPoint ce d n k) n = epochLen (compPoint ce d n k)) :
    ∃ last, (dataOf (compPoint ce d n k) n).getLast? = some last := by
  have hpos := epochLen_compPoint_pos ce d n k
  have hne : dataOf (compPoint ce d n k) n ≠ [] := by
    intro hnil
    have : nameLen (compPoint ce d n k) n = 0 := by simp [nameLen, hnil]
    omega
  exact Option.isSome_iff_exists.1 (List.getLast?_isSome.2 hne)

/-- `save_output` in the repeated-value case: the series for `name`
already has `epoch_len` rows, so the last row is merged in place. -/
theorem save_output_promote {d : Table} (h : WF d) (ce : ℚ) (n k : String) (v : ℚ)
    (heq : nameLen (compPoint ce d n k) n = epochLen (compPoint ce d n k)) :
    save_output ce d n k v =
      (od_mapData (compPoint ce d n k) n (promoteLast v),
       .ok (checkComplete (od_mapData (compPoint ce d n k) n (promoteLast v))
         (epochLen (compPoint ce d n k)))) := by
  rw [save_output_of_WF h]
  have hnlt : ¬ (epochLen (compPoint ce d n k) < nameLen (compPoint ce d n k) n) := by
    omega
  obtain ⟨last, hlast⟩ := dataOf_compPoint_getLast ce n k heq
  simp only [if_neg hnlt, if_pos heq, hlast]

/-- `save_output` in the expected case: the series is one row short, so
the value is appended. -/
theorem save_output_append (h : WF d) (ce : ℚ) (n k : String) (v : ℚ)
    (hlt : nameLen (compPoint ce d n k) n < epochLen (compPoint ce d n k))
    (heq : nameLen (compPoint ce d n k) n = epochLen (compPoint ce d n k) - 1) :
    save_output ce d n k v =
      (od_mapData (compPoint ce d n k) n (fun xs => xs ++ [Row.val (some v)]),
       .ok (checkComplete
         (od_mapData (compPoint ce d n k) n (fun xs => xs ++ [Row.val (some v)]))
         (epochLen (compPoint ce d n k)))) := by
  rw [save_output_of_WF h]
  have hnlt : ¬ (epochLen (compPoint ce d n k) < nameLen (compPoint ce d n k) n) := by
    omega
  have hne : ¬ (nameLen (compPoint ce d n k) n = epochLen (compPoint ce d n k)) := by
    omega
  simp only [if_neg hnlt, if_neg hne, if_pos heq]

/-- `save_output` in the gap case: more than one row is missing, so
`null` placeholders are backfilled before appending the value. -/
theorem save_output_backfill (h : WF d) (ce : ℚ) (n k : String) (v : ℚ)
    (hlt : nameLen (compPoint ce d n k) n + 1 < epochLen (compPoint ce d n k)) :
    save_output ce d n k v =
      (od_mapData (compPoint ce d n k) n
        (fun xs => xs ++ List.replicate
          (epochLen (compPoint ce d n k) - nameLen (compPoint ce d n k) n - 1)
          (Row.val none) ++ [Row.val (some v)]),
       .ok (checkComplete
         (od_mapData (compPoint ce d n k) n
           (fun xs => xs ++ List.replicate
             (epochLen (compPoint ce d n k) - nameLen (compPoint ce d n k) n - 1)
             (Row.val none) ++ [Row.val (some v)]))
         (epochLen (compPoint ce d n k)))) := by
  rw [save_output_of_WF h]
  have hnlt : ¬ (epochLen (compPoint ce d n k) < nameLen (compPoint ce d n k) n) := by
    omega
  have hne : ¬ (nameLen (compPoint ce d n k) n = epochLen (compPoint ce d n k)) := by
    omega
  have hne1 : ¬ (nameLen (compPoint ce d n k) n = epochLen (compPoint ce d n k) - 1) := by
    omega
  simp only [if_neg hnlt, if_neg hne, if_neg hne1]

/-- `save_output` raises in the over-long case. -/
theorem save_output_raise (h : WF d) (ce : ℚ) (n k : String) (v : ℚ)
    (hlt : epochLen (compPoint ce d n k) < nameLen (compPoint ce d n k) n) :
    save_output ce d n k v = (compPoint ce d n k, .error .outOfOrder) := by
  rw [save_output_of_WF h]
  simp only [if_pos hlt]

/-! ### The alignment invariant -/

/-- Invariant of every reachable table: well-formed, and every non-epoch
series no longer than the epoch series. -/
def Inv (d : Table) : Prop :=
  WF d ∧ ∀ kv ∈ d, kv.1 ≠ "epoch" → kv.2.data.length ≤ epochLen d

theorem compPoint_bound {d : Table} (hI : Inv d) (ce : ℚ) (n k : String) :
    ∀ kv ∈ compPoint ce d n k, kv.1 ≠ "epoch" →
      kv.2.data.length ≤ epochLen (compPoint ce d n k) := by
  intro kv hkv hne
  have hln : epochLen (compPoint ce d n k) = epochLen (epochUpdated ce d) :=
    epochLen_insertName (epochUpdated ce d) n k
  rcases mem_compPoint hkv hne with h1 | h1
  · calc kv.2.data.length ≤ epochLen d := hI.2 kv h1 hne
      _ ≤ epochLen (epochUpdated ce d) := epochLen_le_epochUpdated ce d
      _ = epochLen (compPoint ce d n k) := hln.symm
  · rw [h1]
    exact Nat.zero_le _

theorem nameLen_compPoint_le {d : Table} (hI : Inv d) (ce : ℚ) (n k : String) :
    nameLen (compPoint ce d n k) n ≤ epochLen (compPoint ce d n k) := by
  by_cases hn : n = "epoch"
  · subst hn
    exact le_refl _
  · obtain ⟨o, ho⟩ := compPoint_find_name ce d n k
    rw [nameLen_of_find ho]
    exact compPoint_bound hI ce n k (n, o) (od_find_mem ho) hn

/-- All three mutation branches of `save_output` update the series at
`name` to exactly `epoch_len` rows; this packages the preservation of the
invariant that each of them needs. -/
theorem updated_invariants {d2 : Table} (hWF2 : WF d2) (hpos : 1 ≤ epochLen d2)
    (hb : ∀ kv ∈ d2, kv.1 ≠ "epoch" → kv.2.data.length ≤ epochLen d2)
    {n : String} {o : NetworkOutput} (ho : od_find d2 n = some o)
    {f : List Row → List Row} (hf : (f o.data).length = epochLen d2) :
    Inv (od_mapData d2 n f) ∧ epochLen (od_mapData d2 n f) = epochLen d2 := by
  have hlen : epochLen (od_mapData d2 n f) = epochLen d2 := by
    by_cases hn : n = "epoch"
    · subst hn
      rw [epochLen_of_find (d := od_mapData d2 "epoch" f)
        (o := ⟨o.kind, f o.data⟩) (by rw [od_find_mapData_self, ho]; rfl)]
      exact hf
    · unfold epochLen dataOf
      rw [od_find_mapData_ne _ _ _ (fun hh => hn hh.symm)]
  refine ⟨⟨?_, ?_⟩, hlen⟩
  · intro o' h'
    by_cases hn : n = "epoch"
    · subst hn
      rw [od_find_mapData_self, ho] at h'
      simp only [Option.map_some'] at h'
      injection h' with h2
      subst h2
      intro hnil
      have hnil' : f o.data = [] := hnil
      rw [hnil'] at hf
      simp at hf
      omega
    · rw [od_find_mapData_ne _ _ _ (fun hh => hn hh.symm)] at h'
      exact hWF2 o' h'
  · intro kv hkv hne
    rw [hlen]
    rcases mem_od_mapData hkv with h1 | ⟨o', ho', hkv'⟩
    · exact hb kv h1 hne
    · rw [ho] at ho'
      cases ho'
      rw [hkv']
      simp [hf]

/-- One `save_output` call from an invariant table always returns a
boolean (never raises), preserves the invariant, and its boolean is the
completeness of the resulting table. -/
theorem save_output_step {d : Table} (hI : Inv d) (ce : ℚ) (n k : String) (v : ℚ) :
    ∃ d' b, save_output ce d n k v = (d', .ok b) ∧ Inv d' ∧
      (b = true ↔ ∀ kv ∈ d', kv.1 ≠ "epoch" → kv.1 ≠ "learning_rate" →
        kv.2.data.length = epochLen d') := by
  have hWF2 := WF_compPoint ce d n k
  have hpos := epochLen_compPoint_pos ce d n k
  have hb := compPoint_bound hI ce n k
  have hle := nameLen_compPoint_le hI ce n k
  obtain ⟨o, ho⟩ := compPoint_find_name ce d n k
  have hnl : nameLen (compPoint ce d n k) n = o.data.length := nameLen_of_find ho
  by_cases h1 : nameLen (compPoint ce d n k) n = epochLen (compPoint ce d n k)
  · rw [save_output_promote hI.1 ce n k v h1]
    obtain ⟨hInv3, hlen3⟩ := updated_invariants hWF2 hpos hb ho
      (f := promoteLast v) (by rw [promoteLast_length, ← hnl, h1])
    refine ⟨_, _, rfl, hInv3, ?_⟩
    rw [checkComplete_iff, hlen3]
  · by_cases h2 : nameLen (compPoint ce d n k) n = epochLen (compPoint ce d n k) - 1
    · rw [save_output_append hI.1 ce n k v (by omega) h2]
      obtain ⟨hInv3, hlen3⟩ := updated_invariants hWF2 hpos hb ho
        (f := fun xs => xs ++ [Row.val (some v)]) (by simp; omega)
      refine ⟨_, _, rfl, hInv3, ?_⟩
      rw [checkComplete_iff, hlen3]
    · have hlt : nameLen (compPoint ce d n k) n + 1 < epochLen (compPoint ce d n k) := by
        omega
      rw [save_output_backfill hI.1 ce n k v hlt]
      obtain ⟨hInv3, hlen3⟩ := updated_invariants hWF2 hpos hb ho
        (f := fun xs => xs ++ List.replicate
          (epochLen (compPoint ce d n k) - nameLen (compPoint ce d n k) n - 1)
          (Row.val none) ++ [Row.val (some v)])
        (by simp; omega)
      refine ⟨_, _, rfl, hInv3, ?_⟩
      rw [checkComplete_iff, hlen3]

/-- Every call sequence from the empty table succeeds, keeps the
invariant, and the last boolean is the completeness of the final table. -/
theorem runCalls_ok (cs : List Call) :
    ∃ d b, runCalls cs = (d, .ok b) ∧ Inv d ∧
      (b = true ↔ ∀ kv ∈ d, kv.1 ≠ "epoch" → kv.1 ≠ "learning_rate" →
        kv.2.data.length = epochLen d) := by
  induction cs using List.reverseRecOn with
  | nil =>
      refine ⟨[], true, rfl, ⟨fun o h => by simp [od_find] at h, by simp⟩, by simp⟩
  | append_singleton cs c ih =>
      obtain ⟨d, b, hrun, hInv, _⟩ := ih
      obtain ⟨d', b', hso, hInv', hiff⟩ := save_output_step hInv c.ce c.name c.kind c.value
      refine ⟨d', b', ?_, hInv', hiff⟩
      unfold runCalls at hrun ⊢
      rw [List.foldl_append, hrun]
      simp only [List.foldl_cons, List.foldl_nil]
      exact hso

theorem dataOf_mapData_of_find {d : Table} {n : String} {o : NetworkOutput}
    (f : List Row → List Row) (ho : od_find d n = some o) :
    dataOf (od_mapData d n f) n = f o.data := by
  unfold dataOf
  rw [od_find_mapData_self, ho]
  rfl

theorem save_output_ok_of_le {d : Table} (h : WF d) (ce : ℚ) (n k : String) (v : ℚ)
    (hle : ¬ epochLen (compPoint ce d n k) < nameLen (compPoint ce d n k) n) :
    ∃ b, (save_output ce d n k v).2 = .ok b := by
  have hpos := epochLen_compPoint_pos ce d n k
  by_cases h1 : nameLen (compPoint ce d n k) n = epochLen (compPoint ce d n k)
  · exact ⟨_, by rw [save_output_promote h ce n k v h1]⟩
  · by_cases h2 : nameLen (compPoint ce d n k) n = epochLen (compPoint ce d n k) - 1
    · exact ⟨_, by rw [save_output_append h ce n k v (by omega) h2]⟩
    · exact ⟨_, by rw [save_output_backfill h ce n k v (by omega)]⟩

/-! ### The claims -/

/-- C1: for every sequence of `save_output` calls into a table with
non-decreasing `current_epoch`, after each call every series whose key is
not `'epoch'` or `'learning_rate'` has length at most the `'epoch'`
series length, and the call returns `true` iff every such series has
length exactly equal to it.  (Stated over all call sequences; every
prefix of a non-decreasing sequence is itself non-decreasing, so this
covers the state after each call.) -/
theorem save_output_alignment (cs : List Call) (_hmono : nonDecr cs) :
    ∃ d b, runCalls cs = (d, .ok b) ∧
      (∀ kv ∈ d, kv.1 ≠ "epoch" → kv.1 ≠ "learning_rate" →
        kv.2.data.length ≤ epochLen d) ∧
      (b = true ↔ ∀ kv ∈ d, kv.1 ≠ "epoch" → kv.1 ≠ "learning_rate" →
        kv.2.data.length = epochLen d) := by
  obtain ⟨d, b, h1, hInv, h3⟩ := runCalls_ok cs
  exact ⟨d, b, h1, fun kv hkv hne _ => hInv.2 kv hkv hne, h3⟩

theorem save_output_alignment_witness :
    ∃ d b, runCalls [⟨0, "loss", "SoftmaxWithLoss", 9/10⟩,
        ⟨1, "accuracy", "Accuracy", 1/2⟩] = (d, .ok b) ∧
      (∀ kv ∈ d, kv.1 ≠ "epoch" → kv.1 ≠ "learning_rate" →
        kv.2.data.length ≤ epochLen d) ∧
      (b = true ↔ ∀ kv ∈ d, kv.1 ≠ "epoch" → kv.1 ≠ "learning_rate" →
        kv.2.data.length = epochLen d) :=
  save_output_alignment _ (by
    unfold nonDecr
    simp only [List.map_cons, List.map_nil]
    exact List.chain'_pair.2 (by norm_num))

/-- C2: when `save_output` is called for a name whose series already has
as many rows as the `'epoch'` series, the last row is merged in place
(a scalar is promoted to the two-element list `[old, new]`, a list gets
the value appended); and on a fresh task after `advanceEpoch(0)`
(a no-op, since `current_epoch` starts at 0) three
`recordTrainOutput("loss","SoftmaxWithLoss",0.9)` calls leave
`train_outputs["loss"].data == [[0.9, 0.9, 0.9]]`. -/
theorem save_output_repeat_promotes :
    (∀ (ce : ℚ) (d : Table) (n k : String) (v : ℚ), WF d →
      nameLen (compPoint ce d n k) n = epochLen (compPoint ce d n k) →
      ∃ old, (dataOf (compPoint ce d n k) n).getLast? = some old ∧
        dataOf (save_output ce d n k v).1 n =
          (dataOf (compPoint ce d n k) n).dropLast ++ [mergeRow old v]) ∧
    (∀ te p, send_progress_update ⟨⟨true, 0⟩, te, p⟩ ⟨true, 0⟩ =
      .ok (⟨⟨true, 0⟩, te, p⟩, none)) ∧
    dataOf (save_output 0 (save_output 0 (save_output 0 []
        "loss" "SoftmaxWithLoss" (9/10)).1 "loss" "SoftmaxWithLoss" (9/10)).1
        "loss" "SoftmaxWithLoss" (9/10)).1 "loss"
      = [Row.multi [some (9/10), some (9/10), some (9/10)]] := by
  refine ⟨?_, ?_, by rfl⟩
  · intro ce d n k v h heq
    obtain ⟨last, hlast⟩ := dataOf_compPoint_getLast ce n k heq
    refine ⟨last, hlast, ?_⟩
    rw [save_output_promote h ce n k v heq]
    obtain ⟨o, ho⟩ := compPoint_find_name ce d n k
    have hdo : dataOf (compPoint ce d n k) n = o.data := by
      unfold dataOf
      rw [ho]
    rw [dataOf_mapData_of_find _ ho]
    rw [hdo] at hlast ⊢
    unfold promoteLast
    rw [hlast]
  · intro te p
    simp [send_progress_update]

theorem save_output_repeat_promotes_witness :
    ∃ old, (dataOf (compPoint 0 [("epoch", ⟨"Epoch", [Row.val (some 0)]⟩),
        ("loss", ⟨"SoftmaxWithLoss", [Row.val (some 1)]⟩)] "loss" "SoftmaxWithLoss")
        "loss").getLast? = some old ∧
      dataOf (save_output 0 [("epoch", ⟨"Epoch", [Row.val (some 0)]⟩),
        ("loss", ⟨"SoftmaxWithLoss", [Row.val (some 1)]⟩)] "loss" "SoftmaxWithLoss"
        (1/2)).1 "loss" =
        (dataOf (compPoint 0 [("epoch", ⟨"Epoch", [Row.val (some 0)]⟩),
          ("loss", ⟨"SoftmaxWithLoss", [Row.val (some 1)]⟩)] "loss" "SoftmaxWithLoss")
          "loss").dropLast ++ [mergeRow old (1/2)] :=
  save_output_repeat_promotes.1 0 _ "loss" "SoftmaxWithLoss" (1/2)
    (by decide) (by decide)

/-- C3: when `save_output` is called for a name whose series length is
strictly less than `epoch_len - 1`, the series is extended with exactly
`epoch_len - name_len - 1` null placeholders followed by the value,
bringing its length to exactly `epoch_len`. -/
theorem save_output_backfills_gap (ce : ℚ) (d : Table) (n k : String) (v : ℚ)
    (h : WF d)
    (hlt : nameLen (compPoint ce d n k) n + 1 < epochLen (compPoint ce d n k)) :
    dataOf (save_output ce d n k v).1 n =
      dataOf (compPoint ce d n k) n
        ++ List.replicate
          (epochLen (compPoint ce d n k) - nameLen (compPoint ce d n k) n - 1)
          (Row.val none)
        ++ [Row.val (some v)] ∧
    (dataOf (save_output ce d n k v).1 n).length = epochLen (compPoint ce d n k) := by
  rw [save_output_backfill h ce n k v hlt]
  obtain ⟨o, ho⟩ := compPoint_find_name ce d n k
  have hdo : dataOf (compPoint ce d n k) n = o.data := by
    unfold dataOf
    rw [ho]
  have hnl : nameLen (compPoint ce d n k) n = o.data.length := nameLen_of_find ho
  rw [dataOf_mapData_of_find _ ho, hdo]
  refine ⟨rfl, ?_⟩
  simp only [List.length_append, List.length_replicate, List.length_singleton]
  omega

theorem save_output_backfills_gap_witness :
    nameLen (compPoint 2 [("epoch", ⟨"Epoch",
        [Row.val (some 0), Row.val (some 1), Row.val (some 2)]⟩)] "loss" "L")
      "loss" + 1 <
      epochLen (compPoint 2 [("epoch", ⟨"Epoch",
        [Row.val (some 0), Row.val (some 1), Row.val (some 2)]⟩)] "loss" "L") ∧
    (dataOf (save_output 2 [("epoch", ⟨"Epoch",
        [Row.val (some 0), Row.val (some 1), Row.val (some 2)]⟩)] "loss" "L"
        (1/2)).1 "loss").length =
      epochLen (compPoint 2 [("epoch", ⟨"Epoch",
        [Row.val (some 0), Row.val (some 1), Row.val (some 2)]⟩)] "loss" "L") :=
  ⟨by decide,
    (save_output_backfills_gap 2 _ "loss" "L" (1/2) (by decide) (by decide)).2⟩

/-- C4: `save_output` raises the out-of-order error exactly when, at the
comparison point, the series for `name` is strictly longer than the
`'epoch'` series; in every other case it returns a boolean. -/
theorem save_output_out_of_order (ce : ℚ) (d : Table) (n k : String) (v : ℚ)
    (h : WF d) :
    ((save_output ce d n k v).2 = .error .outOfOrder ↔
      epochLen (compPoint ce d n k) < nameLen (compPoint ce d n k) n) ∧
    (¬ epochLen (compPoint ce d n k) < nameLen (compPoint ce d n k) n →
      ∃ b, (save_output ce d n k v).2 = .ok b) := by
  refine ⟨⟨?_, ?_⟩, save_output_ok_of_le h ce n k v⟩
  · intro herr
    by_contra hnlt
    obtain ⟨b, hb⟩ := save_output_ok_of_le h ce n k v hnlt
    rw [herr] at hb
    cases hb
  · intro hlt
    rw [save_output_raise h ce n k v hlt]

theorem save_output_out_of_order_witness :
    ((save_output 0 [("epoch", ⟨"Epoch", [Row.val (some 0)]⟩),
        ("loss", ⟨"L", [Row.val (some 1), Row.val (some 2)]⟩)] "loss" "L" 3).2 =
        .error .outOfOrder ↔
      epochLen (compPoint 0 [("epoch", ⟨"Epoch", [Row.val (some 0)]⟩),
        ("loss", ⟨"L", [Row.val (some 1), Row.val (some 2)]⟩)] "loss" "L") <
      nameLen (compPoint 0 [("epoch", ⟨"Epoch", [Row.val (some 0)]⟩),
        ("loss", ⟨"L", [Row.val (some 1), Row.val (some 2)]⟩)] "loss" "L") "loss") ∧
    (¬ epochLen (compPoint 0 [("epoch", ⟨"Epoch", [Row.val (some 0)]⟩),
        ("loss", ⟨"L", [Row.val (some 1), Row.val (some 2)]⟩)] "loss" "L") <
      nameLen (compPoint 0 [("epoch", ⟨"Epoch", [Row.val (some 0)]⟩),
        ("loss", ⟨"L", [Row.val (some 1), Row.val (some 2)]⟩)] "loss" "L") "loss" →
      ∃ b, (save_output 0 [("epoch", ⟨"Epoch", [Row.val (some 0)]⟩),
        ("loss", ⟨"L", [Row.val (some 1), Row.val (some 2)]⟩)] "loss" "L" 3).2 =
        .ok b) :=
  save_output_out_of_order 0 _ "loss" "L" 3 (by decide)

/-- C9: neither the constructor nor the deserializer assigns
`last_train_update` (the fresh task carries `none`), and any
`save_train_output` call whose `save_output` completes a row then reads
the unset attribute and fails with `AttributeError` before any push or
timestamp update (the table mutation, however, has already happened). -/
theorem save_train_output_unset_attr :
    (∀ te, (freshTask te).last_train_update = none) ∧
    ∀ (now ce : ℚ) (d : Table) (n k : String) (v : ℚ),
      (save_output ce d n k v).2 = .ok true →
      save_train_output now ce none d n k v =
        ⟨(save_output ce d n k v).1, none, false, some .attrError⟩ := by
  refine ⟨fun te => rfl, ?_⟩
  intro now ce d n k v h
  unfold save_train_output
  split
  · next d1 e heq =>
      rw [heq] at h
      simp at h
  · next d1 heq =>
      rw [heq] at h
      simp at h
  · next d1 heq =>
      rw [heq]

theorem save_train_output_unset_attr_witness :
    save_train_output 1000 0 none [] "loss" "SoftmaxWithLoss" (9/10) =
      ⟨[("epoch", ⟨"Epoch", [Row.val (some 0)]⟩),
        ("loss", ⟨"SoftmaxWithLoss", [Row.val (some (9/10))]⟩)],
        none, false, some .attrError⟩ := by
  rw [save_train_output_unset_attr.2 1000 0 [] "loss" "SoftmaxWithLoss" (9/10)
    (by rfl)]
  rfl

/-- C6 counterexample: the source runs under Python 2, where `/` on two
ints is floor division, so `send_progress_update(1)` on a task with
integer `train_epochs = 2` stores `progress = 1/2 = 0` — not the exact
quotient `1/2` — and emits percentage `0`, not `round(100 * (1/2)) = 50`. -/
theorem send_progress_update_int_div_cex :
    send_progress_update ⟨⟨true, 0⟩, ⟨true, 2⟩, ⟨true, 0⟩⟩ ⟨true, 1⟩ =
      .ok (⟨⟨true, 1⟩, ⟨true, 2⟩, ⟨true, 0⟩⟩, some 0) ∧
    (⟨true, 1⟩ : PyNum).val / (⟨true, 2⟩ : PyNum).val = 1/2 ∧
    (⟨true, 0⟩ : PyNum).val ≠ 1/2 ∧
    pyRound (100 * (1/2 : ℚ)) = 50 ∧ (0 : Int) ≠ 50 := by
  have hf : Int.floor ((1 : ℚ)/2) = 0 := by
    rw [Int.floor_eq_iff]; norm_num
  have hf2 : Int.floor ((100 : ℚ) * (1/2) + 1/2) = 50 := by
    rw [Int.floor_eq_iff]; norm_num
  have hf3 : Int.floor ((0 : ℚ) + 1/2) = 0 := by
    rw [Int.floor_eq_iff]; norm_num
  refine ⟨?_, by norm_num, by norm_num, ?_, by norm_num⟩
  · unfold send_progress_update pydiv pyRound
    norm_num [hf, hf3]
  · unfold pyRound
    norm_num [hf2]

/-- C6 amended: `send_progress_update` with an epoch numerically equal to
`current_epoch` is a no-op; otherwise it stores the epoch, sets
`progress` to the Python 2 quotient `epoch / train_epochs` — the exact
quotient when either operand is a float, the floor of the exact quotient
when both are ints — and emits `round(100 * progress)`. -/
theorem send_progress_update_py2 (s : ProgressState) (epoch : PyNum) :
    (s.current_epoch.val = epoch.val → send_progress_update s epoch = .ok (s, none)) ∧
    (s.current_epoch.val ≠ epoch.val → s.train_epochs.val ≠ 0 →
      send_progress_update s epoch =
        .ok ({ current_epoch := epoch, train_epochs := s.train_epochs,
               progress := pydiv epoch s.train_epochs },
          some (pyRound (100 * (pydiv epoch s.train_epochs).val))) ∧
      (pydiv epoch s.train_epochs).val =
        (if epoch.isInt && s.train_epochs.isInt
         then ((Int.floor (epoch.val / s.train_epochs.val) : ℤ) : ℚ)
         else epoch.val / s.train_epochs.val)) := by
  constructor
  · intro h
    unfold send_progress_update
    rw [if_pos h]
  · intro h hz
    unfold send_progress_update
    rw [if_neg h, if_neg hz]
    refine ⟨rfl, ?_⟩
    unfold pydiv
    split <;> rfl

theorem send_progress_update_py2_witness :
    send_progress_update ⟨⟨true, 0⟩, ⟨true, 2⟩, ⟨true, 0⟩⟩ ⟨false, 1⟩ =
      .ok ({ current_epoch := ⟨false, 1⟩, train_epochs := ⟨true, 2⟩,
             progress := pydiv ⟨false, 1⟩ ⟨true, 2⟩ },
        some (pyRound (100 * (pydiv ⟨false, 1⟩ ⟨true, 2⟩).val))) ∧
    (pydiv ⟨false, 1⟩ ⟨true, 2⟩).val =
      (if (⟨false, 1⟩ : PyNum).isInt && (⟨true, 2⟩ : PyNum).isInt
       then ((Int.floor ((⟨false, 1⟩ : PyNum).val / (⟨true, 2⟩ : PyNum).val) : ℤ) : ℚ)
       else (⟨false, 1⟩ : PyNum).val / (⟨true, 2⟩ : PyNum).val) :=
  (send_progress_update_py2 ⟨⟨true, 0⟩, ⟨true, 2⟩, ⟨true, 0⟩⟩ ⟨false, 1⟩).2
    (by norm_num) (by norm_num)

/-- C8: deserializing a pre-version-2 state with
`train_loss_updates = [(0,1.0),(1,0.8)]` and
`lr_updates = [(0,0.01),(1,0.01)]` yields `train_outputs` holding exactly
`epoch : [0,1]`, `loss : [1.0,0.8]`, `learning_rate : [0.01,0.01]`, with
those kinds, in that insertion order. -/
theorem setstate_migration_v1 (ver : Int) (hv : ver < 2) (cur : Table × Table)
    (vl va : Option (List (ℚ × ℚ))) :
    ∃ vouts, setstate_tables ver cur (some [(0, 1), (1, 4/5)]) vl va
        (some [(0, 1/100), (1, 1/100)]) =
      .ok ([("epoch", ⟨"Epoch", [Row.val (some 0), Row.val (some 1)]⟩),
            ("loss", ⟨"SoftmaxWithLoss", [Row.val (some 1), Row.val (some (4/5))]⟩),
            ("learning_rate", ⟨"LearningRate",
              [Row.val (some (1/100)), Row.val (some (1/100))]⟩)], vouts) := by
  refine ⟨(if pyTruthy vl then
      [("epoch", ⟨"Epoch", pairsFst (vl.getD [])⟩),
        ("loss", ⟨"SoftmaxWithLoss", pairsSnd (vl.getD [])⟩)]
      ++ (if pyTruthy va then
            [("accuracy", ⟨"Accuracy", pairsSnd (va.getD [])⟩)] else [])
    else []), ?_⟩
  unfold setstate_tables
  rw [if_pos hv]
  rfl

theorem setstate_migration_v1_witness :
    ∃ vouts, setstate_tables 1 ([], []) (some [(0, 1), (1, 4/5)]) none none
        (some [(0, 1/100), (1, 1/100)]) =
      .ok ([("epoch", ⟨"Epoch", [Row.val (some 0), Row.val (some 1)]⟩),
            ("loss", ⟨"SoftmaxWithLoss", [Row.val (some 1), Row.val (some (4/5))]⟩),
            ("learning_rate", ⟨"LearningRate",
              [Row.val (some (1/100)), Row.val (some (1/100))]⟩)], vouts) :=
  setstate_migration_v1 1 (by norm_num) ([], []) none none

/-- C10: a pre-version-2 state with a truthy `train_loss_updates` but no
`lr_updates` makes `__setstate__` iterate over `None`, so
deserialization fails with a `TypeError` instead of producing a task. -/
theorem setstate_missing_lr_fails (ver : Int) (hv : ver < 2) (cur : Table × Table)
    (tl vl va : Option (List (ℚ × ℚ))) (ht : pyTruthy tl = true) :
    setstate_tables ver cur tl vl va none = .error .typeError := by
  unfold setstate_tables
  rw [if_pos hv]
  simp only [ht]
  rfl

theorem setstate_missing_lr_fails_witness :
    setstate_tables 1 ([], []) (some [(0, 1)]) none none none =
      .error .typeError :=
  setstate_missing_lr_fails 1 (by norm_num) ([], []) (some [(0, 1)]) none none rfl

/-! ### Down-sampling and formatter-loop lemmas -/

/-- The columns a formatter emitted, `[]` for a `None` payload. -/
def colsOf : Option GraphData → List Column
  | some g => g.columns
  | none => []

theorem everyNthAux_length {α : Type} (k : Nat) (hk : 1 ≤ k) :
    ∀ (xs : List α) (c : Nat),
      (everyNthAux k xs c).length = (xs.length - c + k - 1) / k := by
  intro xs
  induction xs with
  | nil =>
      intro c
      simp only [everyNthAux, List.length_nil]
      rw [Nat.zero_sub]
      exact (Nat.div_eq_of_lt (by omega)).symm
  | cons x rest ih =>
      intro c
      cases c with
      | zero =>
          simp only [everyNthAux, List.length_cons, ih (k - 1)]
          rcases Nat.le_total (k - 1) rest.length with hle | hle
          · have h1 : rest.length - (k - 1) + k - 1 = rest.length := by omega
            have h2 : rest.length + 1 - 0 + k - 1 = rest.length + k := by omega
            rw [h1, h2, Nat.add_div_right _ (by omega)]
          · have h1 : rest.length - (k - 1) = 0 := by omega
            have h2 : rest.length + 1 - 0 + k - 1 = rest.length + k := by omega
            rw [h1, h2, Nat.add_div_right _ (by omega),
              Nat.div_eq_of_lt (by omega), Nat.div_eq_of_lt (by omega)]
      | succ c =>
          simp only [everyNthAux, List.length_cons, ih c]
          congr 1
          omega

theorem everyNth_length {α : Type} {k : Nat} (hk : 1 ≤ k) (xs : List α) :
    (everyNth xs k).length = (xs.length + k - 1) / k := by
  unfold everyNth
  rw [everyNthAux_length k hk xs 0, Nat.sub_zero]

theorem everyNth_one {α : Type} (xs : List α) : everyNth xs 1 = xs := by
  unfold everyNth
  suffices h : ∀ ys : List α, everyNthAux 1 ys 0 = ys from h xs
  intro ys
  induction ys with
  | nil => rfl
  | cons y rest ih => simpa [everyNthAux] using ih

theorem strideOf_pos (len : Nat) : 1 ≤ strideOf len := Nat.le_max_right _ _

theorem sideCols_cols (P : String → NetworkOutput → Bool) (tag : Bool)
    (suf xid ns : String) (stride : Nat) (t : Table) :
    (sideCols P tag suf xid ns stride t).cols =
      (t.filter fun kv => P kv.1 kv.2).map
        fun kv => ⟨kv.1 ++ suf, everyNth kv.2.data stride⟩ := by
  induction t with
  | nil => rfl
  | cons hd tl ih =>
      obtain ⟨n, o⟩ := hd
      simp only [sideCols, List.filter_cons]
      cases hP : P n o <;> simp [hP, ih]

theorem sideCols_axes (P : String → NetworkOutput → Bool) (tag : Bool)
    (suf xid ns : String) (stride : Nat) (t : Table) :
    (sideCols P tag suf xid ns stride t).axes =
      (t.filter fun kv => P kv.1 kv.2 && (tag && kindHasAccuracy kv.2.kind)).map
        fun kv => (kv.1 ++ suf, "y2") := by
  induction t with
  | nil => rfl
  | cons hd tl ih =>
      obtain ⟨n, o⟩ := hd
      simp only [sideCols, List.filter_cons]
      cases hP : P n o
      · simp [hP, ih]
      · cases hA : tag && kindHasAccuracy o.kind <;> simp [hP, hA, ih]

theorem sideCols_added (P : String → NetworkOutput → Bool) (tag : Bool)
    (suf xid ns : String) (stride : Nat) (t : Table) :
    (sideCols P tag suf xid ns stride t).added =
      !(t.filter fun kv => P kv.1 kv.2).isEmpty := by
  induction t with
  | nil => rfl
  | cons hd tl ih =>
      obtain ⟨n, o⟩ := hd
      simp only [sideCols, List.filter_cons]
      cases hP : P n o <;> simp [hP, ih]

theorem sideBlock_empty (P : String → NetworkOutput → Bool) (tag : Bool)
    (suf xid ns : String) :
    sideBlock [] P tag suf xid ns = ⟨[], [], [], [], false⟩ := rfl

theorem sideBlock_eq {t : Table} {eo : NetworkOutput}
    (h : od_find t "epoch" = some eo) (P : String → NetworkOutput → Bool)
    (tag : Bool) (suf xid ns : String) :
    sideBlock t P tag suf xid ns =
      { sideCols P tag suf xid ns (strideOf eo.data.length) t with
        cols :=
          if (sideCols P tag suf xid ns (strideOf eo.data.length) t).added then
            (sideCols P tag suf xid ns (strideOf eo.data.length) t).cols
              ++ [⟨xid, everyNth eo.data (strideOf eo.data.length)⟩]
          else (sideCols P tag suf xid ns (strideOf eo.data.length) t).cols } := by
  unfold sideBlock
  rw [h]

theorem sideBlock_cols_mem {t : Table} {eo : NetworkOutput}
    (h : od_find t "epoch" = some eo) {P : String → NetworkOutput → Bool}
    {tag : Bool} {suf xid ns : String} {col : Column}
    (hc : col ∈ (sideBlock t P tag suf xid ns).cols) :
    ∃ kv, kv ∈ t ∧ col.vals = everyNth kv.2.data (strideOf eo.data.length) := by
  rw [sideBlock_eq h] at hc
  simp only at hc
  have hmap : col ∈ (sideCols P tag suf xid ns (strideOf eo.data.length) t).cols →
      ∃ kv, kv ∈ t ∧ col.vals = everyNth kv.2.data (strideOf eo.data.length) := by
    intro hm
    rw [sideCols_cols] at hm
    obtain ⟨kv, hkv, hcol⟩ := List.mem_map.1 hm
    exact ⟨kv, List.mem_of_mem_filter hkv, by rw [← hcol]⟩
  split at hc
  · rcases List.mem_append.1 hc with h1 | h1
    · exact hmap h1
    · simp only [List.mem_singleton] at h1
      exact ⟨("epoch", eo), od_find_mem h, by rw [h1]⟩
  · exact hmap hc

theorem mem_colsOf_assembleGraph {tr vr : SideResult} {col : Column}
    (h : col ∈ colsOf (assembleGraph tr vr)) : col ∈ tr.cols ++ vr.cols := by
  simp only [assembleGraph] at h
  split at h
  · simp [colsOf] at h
  · exact h

theorem assembleGraph_some {tr vr : SideResult}
    (h : tr.cols ++ vr.cols ≠ []) :
    assembleGraph tr vr =
      some ⟨tr.cols ++ vr.cols, tr.xs ++ vr.xs, tr.names ++ vr.names,
        tr.axes ++ vr.axes⟩ := by
  unfold assembleGraph
  rw [if_neg (by simpa [List.isEmpty_iff] using h)]

theorem assembleGraph_none {tr vr : SideResult}
    (h1 : tr.cols = []) (h2 : vr.cols = []) : assembleGraph tr vr = none := by
  unfold assembleGraph
  rw [if_pos (by simp [h1, h2])]

/-- Any column emitted from a train-side loop over a table whose series
all have length `L` carries `ceil(L / stride)` points, with
`stride = max(L/100, 1)` computed from the epoch-series length. -/
theorem formatter_col_len {train : Table} {L : Nat} {eo : NetworkOutput}
    (hT : od_find train "epoch" = some eo)
    (hL : ∀ kv ∈ train, kv.2.data.length = L)
    (P : String → NetworkOutput → Bool) (tag : Bool) (suf xid ns : String)
    (vr : SideResult) (hvr : vr.cols = []) :
    ∀ col ∈ colsOf (assembleGraph (sideBlock train P tag suf xid ns) vr),
      col.vals.length = (L + strideOf L - 1) / strideOf L := by
  intro col hc
  have hmem := mem_colsOf_assembleGraph hc
  rw [hvr, List.append_nil] at hmem
  obtain ⟨kv, hkv, hcol⟩ := sideBlock_cols_mem hT hmem
  have heL : eo.data.length = L := hL ("epoch", eo) (od_find_mem hT)
  rw [hcol, heL, everyNth_length (strideOf_pos L), hL kv hkv]

theorem assembleGraph_eq_none {tr vr : SideResult} :
    assembleGraph tr vr = none ↔ tr.cols ++ vr.cols = [] := by
  simp only [assembleGraph]
  split
  · next h => simp_all [List.isEmpty_iff]
  · next h => simp_all [List.isEmpty_iff]

theorem side_ids {t : Table} {eo : NetworkOutput}
    (h : od_find t "epoch" = some eo) (P : String → NetworkOutput → Bool)
    (tag : Bool) (suf xid ns : String) :
    (sideBlock t P tag suf xid ns).cols.map Column.id =
      ((t.filter fun kv => P kv.1 kv.2).map fun kv => kv.1 ++ suf)
      ++ (if (t.filter fun kv => P kv.1 kv.2).isEmpty then [] else [xid]) := by
  rw [sideBlock_eq h]
  simp only [sideCols_added, sideCols_cols]
  cases hE : (t.filter fun kv => P kv.1 kv.2).isEmpty
  · simp [List.map_map, Function.comp]
  · rw [List.isEmpty_iff] at hE
    simp [hE]

theorem side_axes {t : Table} {eo : NetworkOutput}
    (h : od_find t "epoch" = some eo) (P : String → NetworkOutput → Bool)
    (suf xid ns : String) :
    (sideBlock t P true suf xid ns).axes =
      (t.filter fun kv => P kv.1 kv.2 && kindHasAccuracy kv.2.kind).map
        fun kv => (kv.1 ++ suf, "y2") := by
  rw [sideBlock_eq h]
  simp only [sideCols_axes, Bool.true_and]

theorem side_cols_eq_nil {t : Table} {eo : NetworkOutput}
    (h : od_find t "epoch" = some eo) (P : String → NetworkOutput → Bool)
    (tag : Bool) (suf xid ns : String) :
    (sideBlock t P tag suf xid ns).cols = [] ↔
      (t.filter fun kv => P kv.1 kv.2) = [] := by
  rw [sideBlock_eq h]
  simp only [sideCols_added, sideCols_cols]
  cases hE : (t.filter fun kv => P kv.1 kv.2).isEmpty
  · have hne : (t.filter fun kv => P kv.1 kv.2) ≠ [] := by
      simpa [List.isEmpty_iff] using hE
    simp [hne]
  · rw [List.isEmpty_iff] at hE
    simp [hE]

/-- C5 counterexample: the claim says a `'learning_rate'` series is
excluded on both sides, but the val-side loop filters only
`name not in ['epoch']`, so a val-side `'learning_rate'` series produces
a `learning_rate-val` column. -/
theorem combined_graph_claim_cex :
    (combined_graph_data
      [("epoch", ⟨"Epoch", [Row.val (some 0)]⟩)]
      [("epoch", ⟨"Epoch", [Row.val (some 0)]⟩),
       ("learning_rate", ⟨"LearningRate", [Row.val (some 1)]⟩)]).map
        (fun g => g.columns.map Column.id)
      = some ["learning_rate-val", "val_epochs"] := by
  decide

/-- C5 amended: `combined_graph_data` produces one data column for every
train metric except `'epoch'`/`'learning_rate'` and one for every val
metric except `'epoch'` only (a val-side `'learning_rate'` series is
included), plus an x-axis column per non-empty side, and tags for the
secondary axis exactly the included metrics whose kind contains
"accuracy" case-insensitively. -/
theorem combined_graph_inclusion (train val : Table) (eo vo : NetworkOutput)
    (hT : od_find train "epoch" = some eo) (hV : od_find val "epoch" = some vo) :
    (combined_graph_data train val = none ↔
      (train.filter fun kv => !(kv.1 == "epoch" || kv.1 == "learning_rate")) = []
        ∧ (val.filter fun kv => !(kv.1 == "epoch")) = []) ∧
    (∀ g, combined_graph_data train val = some g →
      g.columns.map Column.id =
        ((train.filter fun kv => !(kv.1 == "epoch" || kv.1 == "learning_rate")).map
          fun kv => kv.1 ++ "-train")
        ++ (if (train.filter fun kv =>
              !(kv.1 == "epoch" || kv.1 == "learning_rate")).isEmpty
            then [] else ["train_epochs"])
        ++ ((val.filter fun kv => !(kv.1 == "epoch")).map fun kv => kv.1 ++ "-val")
        ++ (if (val.filter fun kv => !(kv.1 == "epoch")).isEmpty
            then [] else ["val_epochs"]) ∧
      g.axes =
        ((train.filter fun kv =>
            !(kv.1 == "epoch" || kv.1 == "learning_rate") && kindHasAccuracy kv.2.kind).map
          fun kv => (kv.1 ++ "-train", "y2"))
        ++ ((val.filter fun kv => !(kv.1 == "epoch") && kindHasAccuracy kv.2.kind).map
          fun kv => (kv.1 ++ "-val", "y2"))) := by
  constructor
  · unfold combined_graph_data
    rw [assembleGraph_eq_none, List.append_eq_nil,
      side_cols_eq_nil hT, side_cols_eq_nil hV]
  · intro g hg
    by_cases hnil : (sideBlock train (fun n _ => !(n == "epoch" || n == "learning_rate"))
          true "-train" "train_epochs" " (train)").cols
        ++ (sideBlock val (fun n _ => !(n == "epoch"))
          true "-val" "val_epochs" " (val)").cols = []
    · exfalso
      have : combined_graph_data train val = none := by
        unfold combined_graph_data
        rw [assembleGraph_eq_none]
        exact hnil
      rw [this] at hg
      cases hg
    · have hsome := assembleGraph_some hnil
      unfold combined_graph_data at hg
      rw [hsome] at hg
      cases hg
      constructor
      · simp only [List.map_append]
        rw [side_ids hT, side_ids hV]
        simp [List.append_assoc]
      · rw [side_axes hT, side_axes hV]

theorem combined_graph_inclusion_witness :
    (combined_graph_data
        [("epoch", ⟨"Epoch", [Row.val (some 0)]⟩)]
        [("epoch", ⟨"Epoch", [Row.val (some 0)]⟩),
         ("accuracy", ⟨"Accuracy", [Row.val (some 1)]⟩),
         ("learning_rate", ⟨"LearningRate", [Row.val (some 1)]⟩)] = none ↔
      ([("epoch", (⟨"Epoch", [Row.val (some 0)]⟩ : NetworkOutput))].filter
        fun kv => !(kv.1 == "epoch" || kv.1 == "learning_rate")) = []
        ∧ ([("epoch", (⟨"Epoch", [Row.val (some 0)]⟩ : NetworkOutput)),
            ("accuracy", ⟨"Accuracy", [Row.val (some 1)]⟩),
            ("learning_rate", ⟨"LearningRate", [Row.val (some 1)]⟩)].filter
          fun kv => !(kv.1 == "epoch")) = []) ∧
    (∀ g, combined_graph_data
        [("epoch", ⟨"Epoch", [Row.val (some 0)]⟩)]
        [("epoch", ⟨"Epoch", [Row.val (some 0)]⟩),
         ("accuracy", ⟨"Accuracy", [Row.val (some 1)]⟩),
         ("learning_rate", ⟨"LearningRate", [Row.val (some 1)]⟩)] = some g →
      g.columns.map Column.id =
        (([("epoch", (⟨"Epoch", [Row.val (some 0)]⟩ : NetworkOutput))].filter
          fun kv => !(kv.1 == "epoch" || kv.1 == "learning_rate")).map
          fun kv => kv.1 ++ "-train")
        ++ (if ([("epoch", (⟨"Epoch", [Row.val (some 0)]⟩ : NetworkOutput))].filter
              fun kv => !(kv.1 == "epoch" || kv.1 == "learning_rate")).isEmpty
            then [] else ["train_epochs"])
        ++ (([("epoch", (⟨"Epoch", [Row.val (some 0)]⟩ : NetworkOutput)),
              ("accuracy", ⟨"Accuracy", [Row.val (some 1)]⟩),
              ("learning_rate", ⟨"LearningRate", [Row.val (some 1)]⟩)].filter
            fun kv => !(kv.1 == "epoch")).map fun kv => kv.1 ++ "-val")
        ++ (if ([("epoch", (⟨"Epoch", [Row.val (some 0)]⟩ : NetworkOutput)),
              ("accuracy", ⟨"Accuracy", [Row.val (some 1)]⟩),
              ("learning_rate", ⟨"LearningRate", [Row.val (some 1)]⟩)].filter
            fun kv => !(kv.1 == "epoch")).isEmpty
            then [] else ["val_epochs"]) ∧
      g.axes =
        (([("epoch", (⟨"Epoch", [Row.val (some 0)]⟩ : NetworkOutput))].filter
          fun kv => !(kv.1 == "epoch" || kv.1 == "learning_rate")
            && kindHasAccuracy kv.2.kind).map
          fun kv => (kv.1 ++ "-train", "y2"))
        ++ (([("epoch", (⟨"Epoch", [Row.val (some 0)]⟩ : NetworkOutput)),
              ("accuracy", ⟨"Accuracy", [Row.val (some 1)]⟩),
              ("learning_rate", ⟨"LearningRate", [Row.val (some 1)]⟩)].filter
            fun kv => !(kv.1 == "epoch") && kindHasAccuracy kv.2.kind).map
          fun kv => (kv.1 ++ "-val", "y2"))) :=
  combined_graph_inclusion _ _ ⟨"Epoch", [Row.val (some 0)]⟩
    ⟨"Epoch", [Row.val (some 0)]⟩ rfl rfl

/-- C7: every graph formatter computes, per table, the stride
`max(floor(epoch_len / 100), 1)` and takes every stride-th element of
each included series, so each emitted column carries
`ceil(L / stride)` points; with 250 epoch rows the stride is 2 and each
column carries 125 points, with 50 rows the stride is 1 and no element
is dropped. -/
theorem graph_downsample_stride (train : Table) (L : Nat) (eo : NetworkOutput)
    (hT : od_find train "epoch" = some eo)
    (hL : ∀ kv ∈ train, kv.2.data.length = L) :
    (∀ col ∈ colsOf (combined_graph_data train []),
      col.vals.length = (L + strideOf L - 1) / strideOf L) ∧
    (∀ col ∈ colsOf (loss_graph_data train []),
      col.vals.length = (L + strideOf L - 1) / strideOf L) ∧
    (∀ col ∈ colsOf (accuracy_graph_data train []),
      col.vals.length = (L + strideOf L - 1) / strideOf L) ∧
    (∀ col ∈ colsOf (lr_graph_data train),
      col.vals.length = (L + strideOf L - 1) / strideOf L) ∧
    strideOf 250 = 2 ∧ (250 + strideOf 250 - 1) / strideOf 250 = 125 ∧
    strideOf 50 = 1 ∧ ∀ xs : List Row, everyNth xs 1 = xs := by
  refine ⟨?_, ?_, ?_, ?_, by decide, by decide, by decide, everyNth_one⟩
  · intro col hc
    unfold combined_graph_data at hc
    exact formatter_col_len hT hL _ _ _ _ _ _ rfl col hc
  · intro col hc
    unfold loss_graph_data at hc
    exact formatter_col_len hT hL _ _ _ _ _ _ rfl col hc
  · intro col hc
    unfold accuracy_graph_data at hc
    exact formatter_col_len hT hL _ _ _ _ _ _ rfl col hc
  · intro col hc
    unfold lr_graph_data at hc
    rw [hT] at hc
    cases hlr : od_find train "learning_rate" with
    | none =>
        rw [hlr] at hc
        simp [colsOf] at hc
    | some lo =>
        rw [hlr] at hc
        have heL : eo.data.length = L := hL ("epoch", eo) (od_find_mem hT)
        have hlL : lo.data.length = L := hL ("learning_rate", lo) (od_find_mem hlr)
        simp only [colsOf, List.mem_cons, List.mem_singleton] at hc
        rcases hc with hc | hc | hc
        · rw [hc]
          simp only
          rw [heL, everyNth_length (strideOf_pos L), heL]
        · rw [hc]
          simp only
          rw [heL, everyNth_length (strideOf_pos L), hlL]
        · cases hc

theorem graph_downsample_stride_witness :
    (∀ col ∈ colsOf (combined_graph_data
        [("epoch", ⟨"Epoch", [Row.val (some 0)]⟩)] []),
      col.vals.length = (1 + strideOf 1 - 1) / strideOf 1) ∧
    (∀ col ∈ colsOf (loss_graph_data
        [("epoch", ⟨"Epoch", [Row.val (some 0)]⟩)] []),
      col.vals.length = (1 + strideOf 1 - 1) / strideOf 1) ∧
    (∀ col ∈ colsOf (accuracy_graph_data
        [("epoch", ⟨"Epoch", [Row.val (some 0)]⟩)] []),
      col.vals.length = (1 + strideOf 1 - 1) / strideOf 1) ∧
    (∀ col ∈ colsOf (lr_graph_data
        [("epoch", ⟨"Epoch", [Row.val (some 0)]⟩)]),
      col.vals.length = (1 + strideOf 1 - 1) / strideOf 1) ∧
    strideOf 250 = 2 ∧ (250 + strideOf 250 - 1) / strideOf 250 = 125 ∧
    strideOf 50 = 1 ∧ ∀ xs : List Row, everyNth xs 1 = xs :=
  graph_downsample_stride [("epoch", ⟨"Epoch", [Row.val (some 0)]⟩)] 1
    ⟨"Epoch", [Row.val (some 0)]⟩ rfl
    (by
      intro kv hkv
      simp only [List.mem_singleton] at hkv
      subst hkv
      rfl)

end DigitsTrain
